import Mathlib

/-!
Verification of the csv-report-calc repository: a streaming multi-source CSV
merge engine (`src/reader.hpp`) feeding an online two-heap median calculator
(`median.hpp`).

Modelling conventions of the shallow embedding:
* C++ `double` prices are modelled as exact rationals `ℚ`; every comparison
  and the `!=` change test of the code are the corresponding exact tests on
  `ℚ`.  A *parsed* price is a `double_val`: a finite exact rational, or a
  tagged infinity/NaN for the `inf`/`nan` spellings `std::from_chars`
  accepts; values whose nearest `double` would be `±inf` or (nonzero) `0.0`
  are parse failures (`errc::result_out_of_range`), with the exact
  round-to-nearest-even thresholds spelled out at `dbl_max_bound` and
  `dbl_min_bound`.
* `std::priority_queue<double>` (max-heap) is modelled by its abstract state, a
  list kept sorted in non-increasing order, so `top` is the head and `pop` the
  tail; the min-heap variant is kept sorted non-decreasingly.  `push` is ordered
  insertion, which realises the same multiset semantics.
* `std::uint64_t` timestamps are `ℕ`, with the `2^64` bound enforced where the
  code's `std::from_chars` into `uint64_t` enforces it (overflow is a parse
  failure).
* Strings are Lean `String`s, processed as their character lists.
-/

namespace CsvMedian

/-! ## Median calculator — `median.hpp` (`csv_median::calculator`) -/

/-- State of `csv_median::calculator`: the two heaps, the last computed median
and the change flag, with the default member initialisers of the C++ class. -/
structure calculator where
  lower : List ℚ := []
  upper : List ℚ := []
  last_median : ℚ := 0
  changed : Bool := false

/-- The default-constructed calculator. -/
def calculator.init : calculator := {}

/-- `calculator::balance`: if the lower heap exceeds the upper by more than
one, move its top (the maximum) to the upper heap; if the upper heap is
strictly larger, move its top (the minimum) to the lower heap. -/
def calculator.balance (s : calculator) : calculator :=
  if s.lower.length > s.upper.length + 1 then
    { s with upper := List.orderedInsert (· ≤ ·) (s.lower.headD 0) s.upper,
             lower := s.lower.tail }
  else if s.upper.length > s.lower.length then
    { s with lower := List.orderedInsert (· ≥ ·) (s.upper.headD 0) s.lower,
             upper := s.upper.tail }
  else s

/-- `calculator::compute_median`: average of the two tops on equal sizes,
otherwise the top of the lower heap. -/
def calculator.compute_median (s : calculator) : ℚ :=
  if s.lower.length = s.upper.length then
    (s.lower.headD 0 + s.upper.headD 0) / 2
  else s.lower.headD 0

/-- The routing step at the top of `calculator::add`: push into the lower heap
when it is empty or the value is at most its top, else into the upper heap. -/
def calculator.route (s : calculator) (price_ : ℚ) : calculator :=
  if s.lower = [] ∨ price_ ≤ s.lower.headD 0 then
    { s with lower := List.orderedInsert (· ≥ ·) price_ s.lower }
  else
    { s with upper := List.orderedInsert (· ≤ ·) price_ s.upper }

/-- `calculator::add`: route, balance, recompute the median and set the
change flag by exact inequality with the previously stored median. -/
def calculator.add (s : calculator) (price_ : ℚ) : calculator :=
  let s2 := (s.route price_).balance
  let new_median := s2.compute_median
  { s2 with changed := decide (new_median ≠ s2.last_median),
            last_median := new_median }

/-- `calculator::median`. -/
def calculator.median (s : calculator) : ℚ := s.last_median

/-- `calculator::is_changed`. -/
def calculator.is_changed (s : calculator) : Bool := s.changed

/-- `calculator::count`. -/
def calculator.count (s : calculator) : ℕ := s.lower.length + s.upper.length

/-- `calculator::has_values` (`!_lower.empty()`). -/
def calculator.has_values (s : calculator) : Bool := !s.lower.isEmpty

/-- The calculator state after feeding the values of `xs` in order into a
default-constructed calculator. -/
def addAll (xs : List ℚ) : calculator := xs.foldl calculator.add calculator.init

/-- The textbook median of a list: middle element of the sorted list on odd
length, average of the two middle elements on even length. -/
def trueMedian (xs : List ℚ) : ℚ :=
  let ys := xs.insertionSort (· ≤ ·)
  if xs.length % 2 = 1 then ys.getD (xs.length / 2) 0
  else (ys.getD (xs.length / 2 - 1) 0 + ys.getD (xs.length / 2) 0) / 2

/-- The documented invariant of the two heaps: each is heap-ordered (modelled
as sortedness of the abstract state), every element of the lower half is at
most every element of the upper half, and the sizes are balanced with the
lower heap at least as large. -/
structure calcInv (s : calculator) : Prop where
  lowerSorted : s.lower.Sorted (· ≥ ·)
  upperSorted : s.upper.Sorted (· ≤ ·)
  cross : ∀ a ∈ s.lower, ∀ b ∈ s.upper, a ≤ b
  size_lb : s.upper.length ≤ s.lower.length
  size_ub : s.lower.length ≤ s.upper.length + 1

/-! ### Helper lemmas about sorted lists used as heaps -/

theorem headD_max {l : List ℚ} (hs : l.Sorted (· ≥ ·)) {a : ℚ} (ha : a ∈ l) :
    a ≤ l.headD 0 := by
  cases l with
  | nil => cases ha
  | cons x t =>
    rcases List.mem_cons.mp ha with rfl | ht
    · exact le_refl _
    · exact List.rel_of_sorted_cons hs a ht

theorem headD_min {l : List ℚ} (hs : l.Sorted (· ≤ ·)) {a : ℚ} (ha : a ∈ l) :
    l.headD 0 ≤ a := by
  cases l with
  | nil => cases ha
  | cons x t =>
    rcases List.mem_cons.mp ha with rfl | ht
    · exact le_refl _
    · exact List.rel_of_sorted_cons hs a ht

theorem headD_mem {l : List ℚ} (h : l ≠ []) : l.headD 0 ∈ l := by
  cases l with
  | nil => exact absurd rfl h
  | cons x t => exact List.mem_cons_self x t

theorem sorted_tail {r : ℚ → ℚ → Prop} {l : List ℚ} (hs : l.Sorted r) :
    l.tail.Sorted r := by
  cases l with
  | nil => exact hs
  | cons x t => exact hs.of_cons

theorem mem_tail {l : List ℚ} {a : ℚ} (ha : a ∈ l.tail) : a ∈ l := by
  cases l with
  | nil => cases ha
  | cons x t => exact List.mem_cons_of_mem x ha

theorem cons_headD_tail {l : List ℚ} (h : l ≠ []) : l.headD 0 :: l.tail = l := by
  cases l with
  | nil => exact absurd rfl h
  | cons x t => rfl

theorem cross_headD {s : calculator} (h : calcInv s) (hne : s.lower ≠ []) :
    ∀ b ∈ s.upper, s.lower.headD 0 ≤ b :=
  fun b hb => h.cross _ (headD_mem hne) b hb

/-! ### Preservation of the heap invariant through `add` -/

theorem balance_spec (s : calculator)
    (hls : s.lower.Sorted (· ≥ ·)) (hus : s.upper.Sorted (· ≤ ·))
    (hcross : ∀ a ∈ s.lower, ∀ b ∈ s.upper, a ≤ b)
    (hub : s.lower.length ≤ s.upper.length + 2)
    (hlb : s.upper.length ≤ s.lower.length + 1) :
    calcInv s.balance ∧
      List.Perm (s.balance.lower ++ s.balance.upper) (s.lower ++ s.upper) := by
  unfold calculator.balance
  by_cases h1 : s.lower.length > s.upper.length + 1
  · rw [if_pos h1]
    have hne : s.lower ≠ [] := by
      intro h0
      rw [h0] at h1
      simp at h1
    have hvmem : s.lower.headD 0 ∈ s.lower := headD_mem hne
    refine ⟨⟨sorted_tail hls, hus.orderedInsert _ _, ?_, ?_, ?_⟩, ?_⟩
    · intro a ha b hb
      rcases (List.mem_orderedInsert _).mp hb with rfl | hb'
      · exact headD_max hls (mem_tail ha)
      · exact hcross a (mem_tail ha) b hb'
    · simp only [List.orderedInsert_length, List.length_tail]
      omega
    · simp only [List.orderedInsert_length, List.length_tail]
      omega
    · have p1 : List.Perm
          (s.lower.tail ++ List.orderedInsert (· ≤ ·) (s.lower.headD 0) s.upper)
          (s.lower.tail ++ (s.lower.headD 0 :: s.upper)) :=
        (List.perm_orderedInsert _ _ _).append_left s.lower.tail
      have p2 : List.Perm (s.lower.tail ++ (s.lower.headD 0 :: s.upper))
          (s.lower.headD 0 :: (s.lower.tail ++ s.upper)) := List.perm_middle
      have p3 : s.lower.headD 0 :: (s.lower.tail ++ s.upper) = s.lower ++ s.upper := by
        rw [← List.cons_append, cons_headD_tail hne]
      have := p1.trans p2
      rwa [p3] at this
  · rw [if_neg h1]
    by_cases h2 : s.upper.length > s.lower.length
    · rw [if_pos h2]
      have hne : s.upper ≠ [] := by
        intro h0
        rw [h0] at h2
        simp at h2
      have hvmem : s.upper.headD 0 ∈ s.upper := headD_mem hne
      refine ⟨⟨hls.orderedInsert _ _, sorted_tail hus, ?_, ?_, ?_⟩, ?_⟩
      · intro a ha b hb
        rcases (List.mem_orderedInsert _).mp ha with rfl | ha'
        · exact headD_min hus (mem_tail hb)
        · exact hcross a ha' b (mem_tail hb)
      · simp only [List.orderedInsert_length, List.length_tail]
        omega
      · simp only [List.orderedInsert_length, List.length_tail]
        omega
      · have p1 : List.Perm
            (List.orderedInsert (· ≥ ·) (s.upper.headD 0) s.lower ++ s.upper.tail)
            (s.upper.headD 0 :: (s.lower ++ s.upper.tail)) :=
          (List.perm_orderedInsert _ _ _).append_right s.upper.tail
        have p2 : List.Perm (s.upper.headD 0 :: (s.lower ++ s.upper.tail))
            (s.lower ++ (s.upper.headD 0 :: s.upper.tail)) := List.perm_middle.symm
        have p3 : s.lower ++ (s.upper.headD 0 :: s.upper.tail) = s.lower ++ s.upper := by
          rw [cons_headD_tail hne]
        have := p1.trans p2
        rwa [p3] at this
    · rw [if_neg h2]
      exact ⟨⟨hls, hus, hcross, by omega, by omega⟩, List.Perm.refl _⟩

theorem route_spec (s : calculator) (x : ℚ) (h : calcInv s) :
    (s.route x).lower.Sorted (· ≥ ·) ∧ (s.route x).upper.Sorted (· ≤ ·) ∧
    (∀ a ∈ (s.route x).lower, ∀ b ∈ (s.route x).upper, a ≤ b) ∧
    (s.route x).lower.length ≤ (s.route x).upper.length + 2 ∧
    (s.route x).upper.length ≤ (s.route x).lower.length + 1 ∧
    List.Perm ((s.route x).lower ++ (s.route x).upper) (x :: (s.lower ++ s.upper)) := by
  unfold calculator.route
  by_cases hg : s.lower = [] ∨ x ≤ s.lower.headD 0
  · rw [if_pos hg]
    refine ⟨h.lowerSorted.orderedInsert _ _, h.upperSorted, ?_, ?_, ?_, ?_⟩
    · intro a ha b hb
      simp only at hb
      rcases (List.mem_orderedInsert _).mp ha with rfl | ha'
      · rcases hg with h0 | hxle
        · have : s.upper.length = 0 := by
            have := h.size_lb
            rw [h0] at this
            simpa using this
          rw [List.length_eq_zero] at this
          rw [this] at hb
          cases hb
        · by_cases h0 : s.lower = []
          · have : s.upper.length = 0 := by
              have := h.size_lb
              rw [h0] at this
              simpa using this
            rw [List.length_eq_zero] at this
            rw [this] at hb
            cases hb
          · exact le_trans hxle (cross_headD h h0 b hb)
      · exact h.cross a ha' b hb
    · simp only [List.orderedInsert_length]
      have := h.size_ub
      omega
    · simp only [List.orderedInsert_length]
      have := h.size_lb
      omega
    · exact (List.perm_orderedInsert _ _ _).append_right s.upper
  · rw [if_neg hg]
    push_neg at hg
    obtain ⟨hne, hxgt⟩ := hg
    refine ⟨h.lowerSorted, h.upperSorted.orderedInsert _ _, ?_, ?_, ?_, ?_⟩
    · intro a ha b hb
      simp only at ha
      rcases (List.mem_orderedInsert _).mp hb with rfl | hb'
      · exact le_of_lt (lt_of_le_of_lt (headD_max h.lowerSorted ha) hxgt)
      · exact h.cross a ha b hb'
    · simp only [List.orderedInsert_length]
      have := h.size_ub
      omega
    · simp only [List.orderedInsert_length]
      have := h.size_lb
      omega
    · have p1 : List.Perm (s.lower ++ List.orderedInsert (· ≤ ·) x s.upper)
          (s.lower ++ (x :: s.upper)) :=
        (List.perm_orderedInsert _ _ _).append_left s.lower
      exact p1.trans List.perm_middle

theorem add_lower (s : calculator) (x : ℚ) : (s.add x).lower = ((s.route x).balance).lower := rfl

theorem add_upper (s : calculator) (x : ℚ) : (s.add x).upper = ((s.route x).balance).upper := rfl

theorem add_last_median (s : calculator) (x : ℚ) :
    (s.add x).last_median = ((s.route x).balance).compute_median := rfl

theorem route_last_median (s : calculator) (x : ℚ) :
    (s.route x).last_median = s.last_median := by
  unfold calculator.route
  split <;> rfl

theorem balance_last_median (s : calculator) :
    s.balance.last_median = s.last_median := by
  unfold calculator.balance
  split
  · rfl
  · split <;> rfl

theorem add_changed (s : calculator) (x : ℚ) :
    (s.add x).changed = decide (((s.route x).balance).compute_median ≠ s.last_median) := by
  show decide (((s.route x).balance).compute_median ≠ ((s.route x).balance).last_median) = _
  rw [balance_last_median, route_last_median]

theorem compute_median_congr {s₁ s₂ : calculator}
    (h1 : s₁.lower = s₂.lower) (h2 : s₁.upper = s₂.upper) :
    s₁.compute_median = s₂.compute_median := by
  unfold calculator.compute_median
  rw [h1, h2]

theorem calcInv_congr {s₁ s₂ : calculator} (h1 : s₁.lower = s₂.lower)
    (h2 : s₁.upper = s₂.upper) (h : calcInv s₁) : calcInv s₂ := by
  constructor
  · rw [← h1]
    exact h.lowerSorted
  · rw [← h2]
    exact h.upperSorted
  · rw [← h1, ← h2]
    exact h.cross
  · rw [← h1, ← h2]
    exact h.size_lb
  · rw [← h1, ← h2]
    exact h.size_ub

theorem add_spec (s : calculator) (x : ℚ) (h : calcInv s) :
    calcInv (s.add x) ∧
      List.Perm ((s.add x).lower ++ (s.add x).upper) (x :: (s.lower ++ s.upper)) := by
  obtain ⟨r1, r2, r3, r4, r5, r6⟩ := route_spec s x h
  obtain ⟨b1, b2⟩ := balance_spec (s.route x) r1 r2 r3 r4 r5
  refine ⟨calcInv_congr (add_lower s x).symm (add_upper s x).symm b1, ?_⟩
  rw [add_lower, add_upper]
  exact b2.trans r6

theorem calcInv_init : calcInv calculator.init :=
  ⟨List.sorted_nil, List.sorted_nil,
    (by intro a ha; cases ha), le_refl _, (by simp [calculator.init])⟩

theorem foldl_spec (xs : List ℚ) : ∀ s : calculator, calcInv s →
    calcInv (xs.foldl calculator.add s) ∧
      List.Perm ((xs.foldl calculator.add s).lower ++ (xs.foldl calculator.add s).upper)
        (xs ++ (s.lower ++ s.upper)) := by
  induction xs with
  | nil => exact fun s h => ⟨h, List.Perm.refl _⟩
  | cons x rest ih =>
    intro s h
    obtain ⟨ha, hp⟩ := add_spec s x h
    obtain ⟨hi, hq⟩ := ih (s.add x) ha
    refine ⟨hi, ?_⟩
    have h1 : List.Perm (rest ++ ((s.add x).lower ++ (s.add x).upper))
        (rest ++ (x :: (s.lower ++ s.upper))) := hp.append_left rest
    have h2 : List.Perm (rest ++ (x :: (s.lower ++ s.upper)))
        (x :: (rest ++ (s.lower ++ s.upper))) := List.perm_middle
    simpa using (hq.trans h1).trans h2

theorem addAll_calcInv (xs : List ℚ) : calcInv (addAll xs) :=
  (foldl_spec xs calculator.init calcInv_init).1

theorem addAll_perm (xs : List ℚ) :
    List.Perm ((addAll xs).lower ++ (addAll xs).upper) xs := by
  have := (foldl_spec xs calculator.init calcInv_init).2
  simpa [calculator.init] using this

theorem addAll_count (xs : List ℚ) : (addAll xs).count = xs.length := by
  have := (addAll_perm xs).length_eq
  simpa [calculator.count] using this

/-! ### The computed median is the textbook median -/

theorem asc_sorted {s : calculator} (h : calcInv s) :
    (s.lower.reverse ++ s.upper).Sorted (· ≤ ·) := by
  rw [List.Sorted, List.pairwise_append]
  refine ⟨?_, h.upperSorted, ?_⟩
  · rw [List.pairwise_reverse]
    exact h.lowerSorted
  · intro a ha b hb
    exact h.cross a (List.mem_reverse.mp ha) b hb

theorem sort_eq_asc {s : calculator} (h : calcInv s) {xs : List ℚ}
    (hperm : List.Perm (s.lower ++ s.upper) xs) :
    xs.insertionSort (· ≤ ·) = s.lower.reverse ++ s.upper := by
  refine List.eq_of_perm_of_sorted ?_ (List.sorted_insertionSort _ xs) (asc_sorted h)
  refine (List.perm_insertionSort _ xs).trans (hperm.symm.trans ?_)
  exact ((List.reverse_perm s.lower).symm).append_right s.upper

theorem compute_median_eq_trueMedian (s : calculator) (h : calcInv s) (hn : 0 < s.count)
    {xs : List ℚ} (hperm : List.Perm (s.lower ++ s.upper) xs) :
    s.compute_median = trueMedian xs := by
  have hlen : xs.length = s.lower.length + s.upper.length := by
    have := hperm.length_eq
    simpa using this.symm
  have hys := sort_eq_asc h hperm
  unfold trueMedian calculator.compute_median
  simp only [hys]
  by_cases heq : s.lower.length = s.upper.length
  · have hu1 : 1 ≤ s.upper.length := by
      unfold calculator.count at hn
      omega
    have hmod : ¬ xs.length % 2 = 1 := by omega
    rw [if_pos heq, if_neg hmod]
    have hidx2 : xs.length / 2 = s.upper.length := by omega
    rw [hidx2]
    have hgd2 : (s.lower.reverse ++ s.upper).getD s.upper.length 0 = s.upper.headD 0 := by
      rw [List.getD_eq_getElem?_getD, List.getElem?_append_right (by simp [heq])]
      have h0 : s.upper.length - s.lower.reverse.length = 0 := by simp [heq]
      rw [h0]
      cases hu : s.upper with
      | nil => rw [hu] at hu1; simp at hu1
      | cons u ut => simp
    have hgd1 : (s.lower.reverse ++ s.upper).getD (s.upper.length - 1) 0 =
        s.lower.headD 0 := by
      rw [List.getD_eq_getElem?_getD,
        List.getElem?_append_left (by simp [heq]; omega),
        List.getElem?_reverse (by simp [heq]; omega)]
      have h0 : s.lower.length - 1 - (s.upper.length - 1) = 0 := by omega
      rw [h0]
      cases hl : s.lower with
      | nil => rw [hl] at heq; simp at heq; omega
      | cons a t => simp
    rw [hgd1, hgd2]
  · have hLU : s.lower.length = s.upper.length + 1 := by
      have := h.size_lb
      have := h.size_ub
      omega
    have hmod : xs.length % 2 = 1 := by omega
    rw [if_neg heq, if_pos hmod]
    have hidx : xs.length / 2 = s.upper.length := by omega
    rw [hidx]
    have hgd : (s.lower.reverse ++ s.upper).getD s.upper.length 0 = s.lower.headD 0 := by
      rw [List.getD_eq_getElem?_getD,
        List.getElem?_append_left (by simp [hLU]),
        List.getElem?_reverse (by simp [hLU])]
      have h0 : s.lower.length - 1 - s.upper.length = 0 := by omega
      rw [h0]
      cases hl : s.lower with
      | nil => rw [hl] at hLU; simp at hLU
      | cons a t => simp
    rw [hgd]

theorem foldl_median_eq (xs : List ℚ) : ∀ s : calculator, xs ≠ [] →
    (xs.foldl calculator.add s).median = (xs.foldl calculator.add s).compute_median := by
  induction xs with
  | nil => intro s h; exact absurd rfl h
  | cons x rest ih =>
    intro s _
    by_cases hr : rest = []
    · subst hr
      show (s.add x).median = (s.add x).compute_median
      rw [calculator.median, add_last_median]
      exact (compute_median_congr (add_lower s x) (add_upper s x)).symm
    · rw [List.foldl_cons]
      exact ih (s.add x) hr

/-! ### Claims about the median calculator -/

/-- C1: for every finite sequence of `add(value)` calls, after each call
`median()` equals the true median of all values inserted so far — the middle
element of the sorted values on odd count, the average of the two middle
elements on even count.  (Quantifying over all `xs` covers the state after
every call of every insertion sequence, since each prefix is itself a
sequence.) -/
theorem median_is_true_median (xs : List ℚ) (hne : xs ≠ []) :
    (addAll xs).median = trueMedian xs := by
  have h1 : (addAll xs).median = (addAll xs).compute_median :=
    foldl_median_eq xs calculator.init hne
  rw [h1]
  exact compute_median_eq_trueMedian _ (addAll_calcInv xs)
    (by rw [addAll_count]; exact List.length_pos.mpr hne) (addAll_perm xs)

/-- Witness for `median_is_true_median` at the concrete input `[5, 3, 8]`. -/
theorem median_is_true_median_witness :
    (([5, 3, 8] : List ℚ) ≠ []) ∧ (addAll [5, 3, 8]).median = trueMedian [5, 3, 8] :=
  ⟨by simp, median_is_true_median [5, 3, 8] (by simp)⟩

/-- C3: `count()` equals the number of `add` calls, and after every `add` the
heap sizes differ by at most one with the lower heap at least as large, and
every element of the lower heap is at most every element of the upper heap. -/
theorem count_eq_adds_and_heaps_balanced (xs : List ℚ) :
    (addAll xs).count = xs.length
    ∧ (addAll xs).upper.length ≤ (addAll xs).lower.length
    ∧ (addAll xs).lower.length ≤ (addAll xs).upper.length + 1
    ∧ ∀ a ∈ (addAll xs).lower, ∀ b ∈ (addAll xs).upper, a ≤ b :=
  ⟨addAll_count xs, (addAll_calcInv xs).size_lb, (addAll_calcInv xs).size_ub,
    (addAll_calcInv xs).cross⟩

/-- C4 counterexample: the very first insertion is *not* always reported as
changed — inserting exactly `0.0` (the initial sentinel value of
`_last_median`) first leaves `is_changed()` false, because the freshly
computed median `0.0` equals the sentinel under the exact `!=` test. -/
theorem first_add_of_sentinel_not_changed :
    ((calculator.init.add 0).is_changed = false) ∧ 0 < (calculator.init.add 0).count := by
  constructor
  · decide
  · decide

/-- C4 amended: after every `add`, `is_changed()` is true exactly when the
freshly computed median differs under exact inequality from the median value
held before this add; the very first insertion is reported as changed if and
only if the inserted value differs from the `0.0` sentinel (so not when the
first value is exactly `0.0`). -/
theorem is_changed_iff_median_moved (xs : List ℚ) (x : ℚ) :
    ((addAll xs).add x).is_changed =
        decide (((addAll xs).add x).median ≠ (addAll xs).median)
    ∧ (calculator.init.add x).is_changed = decide (x ≠ 0) := by
  constructor
  · show ((addAll xs).add x).changed = _
    rw [add_changed]
    simp only [calculator.median, add_last_median]
  · simp [calculator.add, calculator.route, calculator.balance,
      calculator.compute_median, calculator.is_changed, calculator.init]

/-- C10: `has_values()` is true exactly when `count() > 0`; the lower heap is
never empty while the upper heap is non-empty; and in the state inspected by
`compute_median` inside any `add` (after routing and balancing) the lower heap
is non-empty and, whenever the two sizes are equal (the branch that also reads
the upper top), the upper heap is non-empty — so every heap-top access of
`add`/`balance`/`compute_median` touches a non-empty heap and `median()` is
well-defined after at least one insertion. -/
theorem has_values_iff_count_pos_and_tops_safe (xs : List ℚ) :
    ((addAll xs).has_values = true ↔ 0 < (addAll xs).count)
    ∧ ((addAll xs).upper ≠ [] → (addAll xs).lower ≠ [])
    ∧ ∀ x : ℚ,
        (((addAll xs).route x).balance).lower ≠ [] ∧
        ((((addAll xs).route x).balance).lower.length =
            (((addAll xs).route x).balance).upper.length →
          (((addAll xs).route x).balance).upper ≠ []) := by
  have h := addAll_calcInv xs
  have hlb := h.size_lb
  refine ⟨?_, ?_, ?_⟩
  · rw [calculator.has_values, calculator.count]
    rw [Bool.not_eq_eq_eq_not]
    simp only [Bool.not_true]
    rw [List.isEmpty_eq_false_iff_exists_mem]
    constructor
    · rintro ⟨a, ha⟩
      have := List.length_pos.mpr (List.ne_nil_of_mem ha)
      omega
    · intro hc
      have : 0 < (addAll xs).lower.length := by omega
      obtain ⟨a, ha⟩ := List.exists_mem_of_length_pos this
      exact ⟨a, ha⟩
  · intro hu h0
    have hpos := List.length_pos.mpr hu
    rw [h0] at hlb
    simp only [List.length_nil] at hlb
    omega
  · intro x
    obtain ⟨hinv, hperm⟩ := add_spec (addAll xs) x h
    have hcount : ((addAll xs).add x).lower.length + ((addAll xs).add x).upper.length =
        xs.length + 1 := by
      have h1 := hperm.length_eq
      have h2 := (addAll_perm xs).length_eq
      simp at h1 h2
      omega
    rw [add_lower, add_upper] at hcount
    have hlb' := hinv.size_lb
    rw [add_lower, add_upper] at hlb'
    constructor
    · intro h0
      rw [h0] at hcount hlb'
      simp only [List.length_nil, Nat.zero_add] at hcount hlb'
      omega
    · intro heq h0
      rw [h0] at hcount heq
      simp only [List.length_nil] at hcount heq
      omega

/-! ## CSV reader — `reader.hpp` (`csv_median::file_cursor`, `csv_median::csv_reader`) -/

/-- A parsed `double` value.  A finite double is carried as the exact
rational value of its decimal literal (the rounding of that exact value to
the nearest representable `double` is the one abstraction of this model);
the non-finite values `std::from_chars` can produce from the `inf`/`infinity`
and `nan` spellings are carried as tagged alternatives, since they have no
rational counterpart. -/
inductive double_val where
  | finite (q : ℚ)
  | infinite (neg : Bool)
  | nan (neg : Bool)
deriving DecidableEq

/-- One record of a CSV file: `{ std::uint64_t receive_ts; double price; }`. -/
structure csv_record where
  receive_ts : ℕ
  price : double_val
deriving DecidableEq

/-- Splitting a line at the `';'` delimiter, as the scanning loops of
`find_column` and `parse_line` do: field `k` of the line is element `k` of
this list, and a field index beyond the last delimiter has no field. -/
def splitSemi : List Char → List (List Char)
  | [] => [[]]
  | c :: rest =>
    if c = ';' then [] :: splitSemi rest
    else
      match splitSemi rest with
      | [] => [[c]]
      | f :: fs => (c :: f) :: fs

/-- Value of a digit string, most significant digit first, as accumulated by
`std::from_chars`. -/
def natOfDigits (ds : List Char) : ℕ := ds.foldl (fun n c => 10 * n + (c.toNat - 48)) 0

/-- `std::from_chars` into `std::uint64_t` as used on the timestamp field:
consumes the longest leading digit run (no sign allowed for an unsigned
target); fails if there is no leading digit or the value overflows the
64-bit range.  Characters after the digit run are ignored — `from_chars`
reports success with the end pointer in the middle of the field, and
`parse_line` never inspects that pointer. -/
def parse_u64 (cs : List Char) : Option ℕ :=
  let ds := cs.takeWhile Char.isDigit
  if ds.isEmpty then none
  else if natOfDigits ds < 2 ^ 64 then some (natOfDigits ds) else none

/-- Value of the optional exponent part of the `std::from_chars` double
grammar (`e`/`E`, optional sign, digits); `0` when absent or incomplete
(an incomplete exponent is not consumed, leaving the mantissa value). -/
def expVal (cs : List Char) : ℤ :=
  match cs with
  | 'e' :: rest | 'E' :: rest =>
    match rest with
    | '+' :: ds =>
      if (ds.takeWhile Char.isDigit).isEmpty then 0
      else (natOfDigits (ds.takeWhile Char.isDigit) : ℤ)
    | '-' :: ds =>
      if (ds.takeWhile Char.isDigit).isEmpty then 0
      else -(natOfDigits (ds.takeWhile Char.isDigit) : ℤ)
    | ds =>
      if (ds.takeWhile Char.isDigit).isEmpty then 0
      else (natOfDigits (ds.takeWhile Char.isDigit) : ℤ)
  | _ => 0

/-- Integer power of ten over `ℚ`. -/
def pow10 (e : ℤ) : ℚ := if 0 ≤ e then (10 : ℚ) ^ e.toNat else 1 / (10 : ℚ) ^ (-e).toNat

/-- Case-insensitive match of a fixed letter pattern (given as
lowercase/uppercase pairs) against a prefix of the input. -/
def matchesCI : List (Char × Char) → List Char → Bool
  | [], _ => true
  | _ :: _, [] => false
  | (l, u) :: ps, d :: ds => (d == l || d == u) && matchesCI ps ds

/-- The `inf` spelling (prefix of `infinity` as well). -/
def infPat : List (Char × Char) := [('i', 'I'), ('n', 'N'), ('f', 'F')]

/-- The `nan` spelling. -/
def nanPat : List (Char × Char) := [('n', 'N'), ('a', 'A'), ('n', 'N')]

/-- The exact magnitude at and beyond which round-to-nearest-even sends a
real number to `double` infinity (the midpoint between `DBL_MAX`
`= 2^1024 - 2^971` and `2^1024`; the tie itself rounds to the even
candidate `2^1024`), making `std::from_chars` report
`errc::result_out_of_range`. -/
def dbl_max_bound : ℚ := 2 ^ 1024 - 2 ^ 970

/-- The exact positive magnitude at and below which round-to-nearest-even
sends a nonzero real number to `0.0` (the midpoint between `0` and the
smallest subnormal `2^-1074`; the tie rounds to the even candidate `0`),
making `std::from_chars` report `errc::result_out_of_range`. -/
def dbl_min_bound : ℚ := 1 / 2 ^ 1075

/-- `std::from_chars` into `double` (`chars_format::general`) as used on the
price field: optional `'-'`, then either the case-insensitive `inf`/
`infinity` or `nan`/`nan(...)` spellings, or a mantissa with at least one
digit and an optional `'.'` followed by an optional exponent.  Like the code,
the prefix match succeeds regardless of what follows it; because
`parse_line` never inspects the end pointer, matching only the three-letter
`inf`/`nan` prefix is observationally identical to consuming the longer
`infinity`/`nan(...)` forms.  A finite value is carried exactly in `ℚ`;
a magnitude whose nearest `double` would be `±inf` or (nonzero) `0.0`
is `errc::result_out_of_range` in the code and hence a parse failure. -/
def parse_double (cs : List Char) : Option double_val :=
  let cs1 := if cs.headD ' ' = '-' then cs.tail else cs
  if matchesCI infPat cs1 then some (double_val.infinite (decide (cs.headD ' ' = '-')))
  else if matchesCI nanPat cs1 then some (double_val.nan (decide (cs.headD ' ' = '-')))
  else
    let intDs := cs1.takeWhile Char.isDigit
    let cs2 := cs1.drop intDs.length
    let fracDs := if cs2.headD ' ' = '.' then cs2.tail.takeWhile Char.isDigit else []
    let cs3 := if cs2.headD ' ' = '.' then cs2.tail.drop fracDs.length else cs2
    if intDs.isEmpty && fracDs.isEmpty then none
    else
      let mag : ℚ := (natOfDigits (intDs ++ fracDs) : ℚ) / 10 ^ fracDs.length
        * pow10 (expVal cs3)
      if dbl_max_bound ≤ mag ∨ (mag ≠ 0 ∧ mag ≤ dbl_min_bound) then none
      else some (double_val.finite (if cs.headD ' ' = '-' then -mag else mag))

/-- Field number `idx` of a line, or the empty string when the line has too
few fields — exactly the `ts_sv`/`price_sv` left empty by the scanning loop
of `file_cursor::parse_line`. -/
def getField (line : List Char) (idx : ℕ) : List Char := (splitSemi line).getD idx []

/-- `file_cursor::parse_line`: extract the two required fields, fail if
either is missing/empty, then parse the timestamp and the price. -/
def parse_line (ts_col price_col : ℕ) (line : List Char) : Option csv_record :=
  let ts_sv := getField line ts_col
  let price_sv := getField line price_col
  if ts_sv.isEmpty || price_sv.isEmpty then none
  else
    match parse_u64 ts_sv with
    | none => none
    | some ts =>
      match parse_double price_sv with
      | none => none
      | some p => some ⟨ts, p⟩

/-- `file_cursor::find_column`: index of the first header field equal to
`col`, scanning `';'`-separated fields. -/
def find_column (header : String) (col : String) : Option ℕ :=
  (splitSemi header.toList).findIdx? (· == col.toList)

/-- The records produced by repeated `file_cursor::advance` over the data
lines of a file: empty lines and lines that fail `parse_line` are skipped. -/
def cursor_records (ts_col price_col : ℕ) (body : List String) : List csv_record :=
  body.filterMap fun line =>
    if line.toList = [] then none else parse_line ts_col price_col line.toList

/-- An input file as the cursor constructor sees it: whether `open` succeeds,
and the sequence of lines `std::getline` yields. -/
structure src_file where
  openable : Bool
  lines : List String
deriving DecidableEq

/-- All valid records of a file, in file order: none if the file cannot be
opened, is empty, or its header lacks a required column; otherwise the
parseable data records.  This is the sequence a `file_cursor` steps through. -/
def file_records (f : src_file) : List csv_record :=
  if f.openable then
    match f.lines with
    | [] => []
    | header :: body =>
      match find_column header "receive_ts", find_column header "price" with
      | some tc, some pc => cursor_records tc pc body
      | _, _ => []
  else []

/-- `file_cursor::is_valid` after construction: the constructor ends with
`_valid = advance()`, so the cursor is retained exactly when it holds a first
record. -/
def file_valid (f : src_file) : Bool := !(file_records f).isEmpty

/-! ### The k-way merge of `csv_reader::process`

The `std::priority_queue` of `(timestamp, index)` pairs with `std::greater`
is modelled by its abstract state: a list kept sorted in the lexicographic
pair order, so `top()` is the head — the entry with the smallest timestamp,
ties broken toward the smallest cursor index — and `push` is ordered
insertion. -/

/-- A heap entry `(receive_ts, cursor index)` of `csv_reader::process`. -/
abbrev heap_entry : Type := ℕ × ℕ

/-- `std::greater<std::pair>` as the heap's priority: lexicographic order on
`(timestamp, index)`; the minimum is popped first. -/
def pairLe (a b : heap_entry) : Prop := a.1 < b.1 ∨ (a.1 = b.1 ∧ a.2 ≤ b.2)

instance (a b : heap_entry) : Decidable (pairLe a b) := by
  unfold pairLe
  exact inferInstance

instance : IsTotal heap_entry pairLe := ⟨by intro a b; unfold pairLe; omega⟩

instance : IsTrans heap_entry pairLe := ⟨by intro a b c; unfold pairLe; omega⟩

/-- `heap.emplace(ts, idx)` on the sorted-list abstraction of the heap. -/
def heapPush (e : heap_entry) (h : List heap_entry) : List heap_entry :=
  List.orderedInsert pairLe e h

/-- The seeding loop of `csv_reader::process`: one entry
`(cursors[i]->current().receive_ts, i)` per retained cursor. -/
def seedHeap (cursors : List (List csv_record)) : List heap_entry :=
  List.insertionSort pairLe ((List.range cursors.length).map
    (fun i => (((cursors.getD i []).headD ⟨0, double_val.finite 0⟩).receive_ts, i)))

/-- Total number of records still unread across all cursors. -/
def totalLen (cs : List (List csv_record)) : ℕ := (cs.map List.length).sum

/-- The `while (!heap.empty())` loop of `csv_reader::process`, expressed with
an explicit fuel bound (each iteration consumes a record or drops a heap
entry, so `totalLen cursors + heap.length` steps always suffice; see
`mergeLoop` and `mergeLoopF_fuel`): pop the minimal entry, emit the current
record of that cursor, advance the cursor and re-push its next timestamp if
it is still ready. -/
def mergeLoopF : ℕ → List (List csv_record) → List heap_entry → List csv_record
  | 0, _, _ => []
  | _ + 1, _, [] => []
  | fuel + 1, cursors, e :: rest =>
    match cursors.getD e.2 [] with
    | [] => mergeLoopF fuel cursors rest
    | r :: rs =>
      let heap' := match rs with
        | [] => rest
        | r2 :: _ => heapPush (r2.receive_ts, e.2) rest
      r :: mergeLoopF fuel (cursors.set e.2 rs) heap'

/-- The merge loop with its sufficient fuel. -/
def mergeLoop (cursors : List (List csv_record)) (heap : List heap_entry) : List csv_record :=
  mergeLoopF (totalLen cursors + heap.length) cursors heap

/-- The record-emission part of `csv_reader::process`: keep the cursors that
reached `Ready` (non-empty record sequences), seed the heap, run the merge
loop.  The emitted list is the sequence of `on_record_` callback invocations. -/
def merge_engine (sources : List (List csv_record)) : List csv_record :=
  let cursors := sources.filter (fun c => !c.isEmpty)
  mergeLoop cursors (seedHeap cursors)

/-- Non-decreasing timestamp order on records. -/
def tsLe (a b : csv_record) : Prop := a.receive_ts ≤ b.receive_ts

instance (a b : csv_record) : Decidable (tsLe a b) := by
  unfold tsLe
  exact inferInstance

/-! ### Facts about the heap abstraction -/

theorem heapPush_length (e : heap_entry) (h : List heap_entry) :
    (heapPush e h).length = h.length + 1 :=
  List.orderedInsert_length pairLe h e

theorem heapPush_mem {a e : heap_entry} {h : List heap_entry} :
    a ∈ heapPush e h ↔ a = e ∨ a ∈ h :=
  List.mem_orderedInsert pairLe

theorem heapPush_sorted {h : List heap_entry} (hs : h.Sorted pairLe) (e : heap_entry) :
    (heapPush e h).Sorted pairLe :=
  hs.orderedInsert e h

theorem heapPush_perm (e : heap_entry) (h : List heap_entry) :
    List.Perm (heapPush e h) (e :: h) :=
  List.perm_orderedInsert pairLe e h

theorem getD_pos_of_ne {cursors : List (List csv_record)} {i : ℕ}
    (h : cursors.getD i [] ≠ []) : i < cursors.length := by
  by_contra hlt
  push_neg at hlt
  rw [List.getD_eq_getElem?_getD, List.getElem?_eq_none hlt] at h
  simp at h

theorem getD_mem {cursors : List (List csv_record)} {i : ℕ} (h : i < cursors.length) :
    cursors.getD i [] ∈ cursors := by
  rw [List.getD_eq_getElem?_getD, List.getElem?_eq_getElem h]
  simp only [Option.getD_some]
  exact List.getElem_mem h

theorem getD_set_self (cursors : List (List csv_record)) (i : ℕ) (a : List csv_record)
    (h : i < cursors.length) : (cursors.set i a).getD i [] = a := by
  simp [List.getD_eq_getElem?_getD, List.getElem?_set_self, h]

theorem getD_set_ne (cursors : List (List csv_record)) {i j : ℕ} (hne : i ≠ j)
    (a : List csv_record) : (cursors.set i a).getD j [] = cursors.getD j [] := by
  rw [List.getD_eq_getElem?_getD, List.getD_eq_getElem?_getD, List.getElem?_set_ne hne]

theorem getD_map_length (cursors : List (List csv_record)) (i : ℕ) :
    (cursors.map List.length).getD i 0 = (cursors.getD i []).length := by
  rw [List.getD_eq_getElem?_getD, List.getD_eq_getElem?_getD, List.getElem?_map]
  cases cursors[i]? <;> rfl

theorem sum_set_add (l : List ℕ) (i : ℕ) (a : ℕ) (h : i < l.length) :
    (l.set i a).sum + l.getD i 0 = l.sum + a := by
  induction l generalizing i with
  | nil => simp at h
  | cons x xs ih =>
    cases i with
    | zero =>
      simp only [List.set, List.sum_cons, List.getD_cons_zero]
      omega
    | succ j =>
      have hj : j < xs.length := by simpa using h
      have := ih j hj
      simp only [List.set, List.sum_cons, List.getD_cons_succ]
      omega

theorem totalLen_set {cursors : List (List csv_record)} {i : ℕ} {r : csv_record}
    {rs : List csv_record} (h : cursors.getD i [] = r :: rs) :
    totalLen (cursors.set i rs) + 1 = totalLen cursors := by
  have hi : i < cursors.length := getD_pos_of_ne (by rw [h]; exact List.cons_ne_nil r rs)
  unfold totalLen
  rw [List.map_set]
  have hs := sum_set_add (cursors.map List.length) i rs.length (by simpa using hi)
  rw [getD_map_length, h] at hs
  simp only [List.length_cons] at hs
  omega

theorem totalLen_zero {cursors : List (List csv_record)}
    (h : ∀ i < cursors.length, cursors.getD i [] = []) : totalLen cursors = 0 := by
  unfold totalLen
  rw [List.sum_eq_zero]
  intro x hx
  rw [List.mem_map] at hx
  obtain ⟨c, hc, rfl⟩ := hx
  obtain ⟨i, hi, rfl⟩ := List.mem_iff_getElem.mp hc
  have h0 := h i hi
  rw [List.getD_eq_getElem?_getD, List.getElem?_eq_getElem hi] at h0
  simp only [Option.getD_some] at h0
  rw [h0]
  rfl

/-- Invariant of the merge loop, as stated in the spec's data model: the heap
holds exactly one entry per still-ready cursor, keyed by that cursor's current
timestamp; the sorted-list heap abstraction is sorted. -/
structure heapInv (cursors : List (List csv_record)) (heap : List heap_entry) : Prop where
  hsorted : heap.Sorted pairLe
  accurate : ∀ e ∈ heap, ∃ r rs, cursors.getD e.2 [] = r :: rs ∧ r.receive_ts = e.1
  hnodup : (heap.map Prod.snd).Nodup
  complete : ∀ i < cursors.length, cursors.getD i [] ≠ [] → i ∈ heap.map Prod.snd

theorem heapInv_pop_exhausted {cursors : List (List csv_record)} {e : heap_entry}
    {rest : List heap_entry} (hinv : heapInv cursors (e :: rest)) {r : csv_record}
    (hr : cursors.getD e.2 [] = [r]) :
    heapInv (cursors.set e.2 []) rest := by
  have hi : e.2 < cursors.length := getD_pos_of_ne (by rw [hr]; simp)
  have hnotin : e.2 ∉ rest.map Prod.snd := by
    have := hinv.hnodup
    rw [List.map_cons, List.nodup_cons] at this
    exact this.1
  refine ⟨hinv.hsorted.of_cons, ?_, ?_, ?_⟩
  · intro e' he'
    have hne : e.2 ≠ e'.2 := by
      intro hEq
      exact hnotin (hEq ▸ List.mem_map_of_mem Prod.snd he')
    rw [getD_set_ne cursors hne]
    exact hinv.accurate e' (List.mem_cons_of_mem e he')
  · have := hinv.hnodup
    rw [List.map_cons, List.nodup_cons] at this
    exact this.2
  · intro i hilen hne
    rw [List.length_set] at hilen
    by_cases hEq : e.2 = i
    · subst hEq
      rw [getD_set_self cursors e.2 [] hi] at hne
      exact absurd rfl hne
    · rw [getD_set_ne cursors hEq] at hne
      have := hinv.complete i hilen hne
      rw [List.map_cons, List.mem_cons] at this
      rcases this with h1 | h2
      · exact absurd h1.symm hEq
      · exact h2

theorem heapInv_pop_push {cursors : List (List csv_record)} {e : heap_entry}
    {rest : List heap_entry} (hinv : heapInv cursors (e :: rest)) {r r2 : csv_record}
    {rs' : List csv_record} (hr : cursors.getD e.2 [] = r :: r2 :: rs') :
    heapInv (cursors.set e.2 (r2 :: rs')) (heapPush (r2.receive_ts, e.2) rest) := by
  have hi : e.2 < cursors.length := getD_pos_of_ne (by rw [hr]; simp)
  have hnotin : e.2 ∉ rest.map Prod.snd := by
    have := hinv.hnodup
    rw [List.map_cons, List.nodup_cons] at this
    exact this.1
  have hrestnodup : (rest.map Prod.snd).Nodup := by
    have := hinv.hnodup
    rw [List.map_cons, List.nodup_cons] at this
    exact this.2
  refine ⟨heapPush_sorted hinv.hsorted.of_cons _, ?_, ?_, ?_⟩
  · intro e' he'
    rcases heapPush_mem.mp he' with rfl | he''
    · refine ⟨r2, rs', ?_, rfl⟩
      exact getD_set_self cursors e.2 (r2 :: rs') hi
    · have hne : e.2 ≠ e'.2 := by
        intro hEq
        exact hnotin (hEq ▸ List.mem_map_of_mem Prod.snd he'')
      rw [getD_set_ne cursors hne]
      exact hinv.accurate e' (List.mem_cons_of_mem e he'')
  · have hperm : List.Perm ((heapPush (r2.receive_ts, e.2) rest).map Prod.snd)
        (e.2 :: rest.map Prod.snd) := by
      have := (heapPush_perm (r2.receive_ts, e.2) rest).map Prod.snd
      simpa using this
    rw [hperm.nodup_iff]
    exact List.nodup_cons.mpr ⟨hnotin, hrestnodup⟩
  · intro i hilen hne
    rw [List.length_set] at hilen
    by_cases hEq : e.2 = i
    · subst hEq
      refine List.mem_map.mpr ⟨(r2.receive_ts, e.2), heapPush_mem.mpr (Or.inl rfl), rfl⟩
    · rw [getD_set_ne cursors hEq] at hne
      have := hinv.complete i hilen hne
      rw [List.map_cons, List.mem_cons] at this
      rcases this with h1 | h2
      · exact absurd h1.symm hEq
      · rw [List.mem_map] at h2
        obtain ⟨e', he', rfl⟩ := h2
        exact List.mem_map.mpr ⟨e', heapPush_mem.mpr (Or.inr he'), rfl⟩

theorem mergeLoopF_step_last (n : ℕ) (cursors : List (List csv_record)) (e : heap_entry)
    (rest : List heap_entry) {r : csv_record} (hr : cursors.getD e.2 [] = [r]) :
    mergeLoopF (n + 1) cursors (e :: rest) = r :: mergeLoopF n (cursors.set e.2 []) rest := by
  simp only [mergeLoopF, hr]

theorem mergeLoopF_step_more (n : ℕ) (cursors : List (List csv_record)) (e : heap_entry)
    (rest : List heap_entry) {r r2 : csv_record} {rs' : List csv_record}
    (hr : cursors.getD e.2 [] = r :: r2 :: rs') :
    mergeLoopF (n + 1) cursors (e :: rest) =
      r :: mergeLoopF n (cursors.set e.2 (r2 :: rs')) (heapPush (r2.receive_ts, e.2) rest) := by
  simp only [mergeLoopF, hr]

theorem pairLe_fst {a b : heap_entry} (h : pairLe a b) : a.1 ≤ b.1 := by
  unfold pairLe at h
  omega

theorem mergeLoopF_main (fuel : ℕ) :
    ∀ (cursors : List (List csv_record)) (heap : List heap_entry),
    totalLen cursors + heap.length ≤ fuel → heapInv cursors heap →
    (mergeLoopF fuel cursors heap).length = totalLen cursors
    ∧ ((∀ c ∈ cursors, c.Sorted tsLe) →
        (mergeLoopF fuel cursors heap).Sorted tsLe
        ∧ ∀ b : heap_entry, (∀ e ∈ heap, pairLe b e) →
            ∀ r ∈ mergeLoopF fuel cursors heap, b.1 ≤ r.receive_ts) := by
  induction fuel with
  | zero =>
    intro cursors heap hf _
    have h0 : totalLen cursors = 0 := by omega
    rw [show mergeLoopF 0 cursors heap = [] from rfl]
    refine ⟨by rw [h0]; rfl, fun _ => ⟨List.sorted_nil, ?_⟩⟩
    intro b _ r hr
    cases hr
  | succ n ih =>
    intro cursors heap hf hinv
    cases heap with
    | nil =>
      have h0 : totalLen cursors = 0 := by
        refine totalLen_zero fun i hi => ?_
        by_contra hne
        cases hinv.complete i hi hne
      rw [show mergeLoopF (n + 1) cursors [] = [] from rfl]
      refine ⟨by rw [h0]; rfl, fun _ => ⟨List.sorted_nil, ?_⟩⟩
      intro b _ r hr
      cases hr
    | cons e rest =>
      obtain ⟨r, rs, hr, hts⟩ := hinv.accurate e (List.mem_cons_self e rest)
      have hb_rest : ∀ e' ∈ rest, pairLe e e' :=
        fun e' he' => List.rel_of_sorted_cons hinv.hsorted e' he'
      cases rs with
      | nil =>
        have hstep := mergeLoopF_step_last n cursors e rest hr
        have hfin : totalLen (cursors.set e.2 []) + rest.length ≤ n := by
          have := totalLen_set hr
          simp only [List.length_cons] at hf
          omega
        obtain ⟨ihlen, ihcond⟩ := ih (cursors.set e.2 []) rest hfin
          (heapInv_pop_exhausted hinv hr)
        constructor
        · rw [hstep]
          simp only [List.length_cons, ihlen]
          have := totalLen_set hr
          omega
        · intro hcs
          have hcs' : ∀ c ∈ cursors.set e.2 [], c.Sorted tsLe := by
            intro c hc
            rcases List.mem_or_eq_of_mem_set hc with hc' | rfl
            · exact hcs c hc'
            · exact List.sorted_nil
          obtain ⟨ihsorted, ihbound⟩ := ihcond hcs'
          constructor
          · rw [hstep, List.Sorted, List.pairwise_cons]
            refine ⟨?_, ihsorted⟩
            intro r' hr'
            have := ihbound e hb_rest r' hr'
            unfold tsLe
            omega
          · intro b hb r' hr'
            rw [hstep, List.mem_cons] at hr'
            rcases hr' with rfl | hr''
            · have := pairLe_fst (hb e (List.mem_cons_self e rest))
              omega
            · exact ihbound b (fun e' he' => hb e' (List.mem_cons_of_mem e he')) r' hr''
      | cons r2 rs' =>
        have hstep := mergeLoopF_step_more n cursors e rest hr
        have hi2 : e.2 < cursors.length := getD_pos_of_ne (by rw [hr]; simp)
        have hfin : totalLen (cursors.set e.2 (r2 :: rs')) +
            (heapPush (r2.receive_ts, e.2) rest).length ≤ n := by
          have := totalLen_set hr
          rw [heapPush_length]
          simp only [List.length_cons] at hf
          omega
        obtain ⟨ihlen, ihcond⟩ := ih _ _ hfin (heapInv_pop_push hinv hr)
        constructor
        · rw [hstep]
          simp only [List.length_cons, ihlen]
          have := totalLen_set hr
          omega
        · intro hcs
          have hsc : (r :: r2 :: rs').Sorted tsLe := by
            have := hcs (cursors.getD e.2 []) (getD_mem hi2)
            rwa [hr] at this
          have hr2ts : tsLe r r2 := List.rel_of_sorted_cons hsc r2 (List.mem_cons_self r2 rs')
          have hcs' : ∀ c ∈ cursors.set e.2 (r2 :: rs'), c.Sorted tsLe := by
            intro c hc
            rcases List.mem_or_eq_of_mem_set hc with hc' | rfl
            · exact hcs c hc'
            · exact hsc.of_cons
          have hb_heap' : ∀ e' ∈ heapPush (r2.receive_ts, e.2) rest, pairLe e e' := by
            intro e' he'
            rcases heapPush_mem.mp he' with rfl | he''
            · unfold tsLe at hr2ts
              show e.1 < r2.receive_ts ∨ (e.1 = r2.receive_ts ∧ e.2 ≤ e.2)
              omega
            · exact hb_rest e' he''
          obtain ⟨ihsorted, ihbound⟩ := ihcond hcs'
          constructor
          · rw [hstep, List.Sorted, List.pairwise_cons]
            refine ⟨?_, ihsorted⟩
            intro r' hr'
            have := ihbound e hb_heap' r' hr'
            unfold tsLe
            omega
          · intro b hb r' hr'
            rw [hstep, List.mem_cons] at hr'
            rcases hr' with rfl | hr''
            · have := pairLe_fst (hb e (List.mem_cons_self e rest))
              omega
            · refine ihbound b (fun e' he' => ?_) r' hr''
              exact IsTrans.trans b e e' (hb e (List.mem_cons_self e rest)) (hb_heap' e' he')

theorem seedHeap_sorted (cursors : List (List csv_record)) :
    (seedHeap cursors).Sorted pairLe :=
  List.sorted_insertionSort pairLe _

theorem seedHeap_perm (cursors : List (List csv_record)) :
    List.Perm (seedHeap cursors)
      ((List.range cursors.length).map
        (fun i => (((cursors.getD i []).headD ⟨0, double_val.finite 0⟩).receive_ts, i))) :=
  List.perm_insertionSort pairLe _

theorem seedHeap_mem {cursors : List (List csv_record)} {e : heap_entry} :
    e ∈ seedHeap cursors ↔
      ∃ i < cursors.length, e = (((cursors.getD i []).headD ⟨0, double_val.finite 0⟩).receive_ts, i) := by
  rw [(seedHeap_perm cursors).mem_iff, List.mem_map]
  constructor
  · rintro ⟨i, hi, rfl⟩
    exact ⟨i, List.mem_range.mp hi, rfl⟩
  · rintro ⟨i, hi, rfl⟩
    exact ⟨i, List.mem_range.mpr hi, rfl⟩

theorem seedHeap_snd_perm (cursors : List (List csv_record)) :
    List.Perm ((seedHeap cursors).map Prod.snd) (List.range cursors.length) := by
  have h1 := (seedHeap_perm cursors).map Prod.snd
  rw [List.map_map] at h1
  rw [show (Prod.snd ∘ fun i : ℕ =>
      ((((cursors.getD i []).headD ⟨0, double_val.finite 0⟩).receive_ts, i) : heap_entry)) = id from rfl] at h1
  rw [List.map_id] at h1
  exact h1

theorem seedHeap_heapInv (cursors : List (List csv_record))
    (hne : ∀ c ∈ cursors, c ≠ []) : heapInv cursors (seedHeap cursors) := by
  refine ⟨seedHeap_sorted cursors, ?_, ?_, ?_⟩
  · intro e he
    obtain ⟨i, hi, rfl⟩ := seedHeap_mem.mp he
    have hcne : cursors.getD i [] ≠ [] := hne _ (getD_mem hi)
    obtain ⟨r, rs, hr⟩ := List.exists_cons_of_ne_nil hcne
    refine ⟨r, rs, hr, ?_⟩
    rw [hr]
    rfl
  · exact (seedHeap_snd_perm cursors).nodup_iff.mpr (List.nodup_range _)
  · intro i hi _
    rw [List.mem_map]
    exact ⟨(((cursors.getD i []).headD ⟨0, double_val.finite 0⟩).receive_ts, i),
      seedHeap_mem.mpr ⟨i, hi, rfl⟩, rfl⟩

theorem totalLen_filter (sources : List (List csv_record)) :
    totalLen (sources.filter (fun c => !c.isEmpty)) = (sources.map List.length).sum := by
  induction sources with
  | nil => rfl
  | cons c cs ih =>
    rw [List.filter_cons]
    by_cases hc : c.isEmpty
    · have hnil : c = [] := List.isEmpty_iff.mp hc
      subst hnil
      simpa using ih
    · rw [if_pos (by simp [hc])]
      unfold totalLen at ih ⊢
      simp only [List.map_cons, List.sum_cons, ih]

theorem filter_ne_nil {sources : List (List csv_record)} :
    ∀ c ∈ sources.filter (fun c => !c.isEmpty), c ≠ [] := by
  intro c hc h0
  have := List.of_mem_filter hc
  subst h0
  simp at this

theorem merge_engine_length (sources : List (List csv_record)) :
    (merge_engine sources).length = (sources.map List.length).sum := by
  unfold merge_engine mergeLoop
  have h := (mergeLoopF_main _ _ _ (le_refl _)
    (seedHeap_heapInv _ (@filter_ne_nil sources))).1
  rw [h, totalLen_filter]

theorem merge_engine_sorted (sources : List (List csv_record))
    (h : ∀ s ∈ sources, s.Sorted tsLe) : (merge_engine sources).Sorted tsLe := by
  unfold merge_engine mergeLoop
  have hcs : ∀ c ∈ sources.filter (fun c => !c.isEmpty), c.Sorted tsLe :=
    fun c hc => h c (List.mem_of_mem_filter hc)
  exact ((mergeLoopF_main _ _ _ (le_refl _)
    (seedHeap_heapInv _ (@filter_ne_nil sources))).2 hcs).1

/-! ### Directory discovery and `csv_reader::process` -/

/-- `needle` is an initial segment of the second list (helper for the
`std::string::find` substring test of `matches_masks`). -/
def leadsWith : List Char → List Char → Bool
  | [], _ => true
  | _ :: _, [] => false
  | c :: cs, d :: ds => c == d && leadsWith cs ds

/-- `stem.find(mask) != npos`: the needle occurs somewhere in the haystack. -/
def occursIn (needle : List Char) : List Char → Bool
  | [] => leadsWith needle []
  | c :: rest => leadsWith needle (c :: rest) || occursIn needle rest

/-- `csv_reader::matches_masks`: an empty mask list admits every file,
otherwise some mask must occur as a substring of the filename stem. -/
def matches_masks (masks : List String) (stem_ : String) : Bool :=
  masks.isEmpty || masks.any (fun m => occursIn m.toList stem_.toList)

/-- A directory entry as `scan_directory` inspects it.  `path` stands for the
`fs::path` under its total order (an abstract ordered identifier); `stem` and
`ext_is_csv` model `path.stem()` and `path.extension() == ".csv"`. -/
structure dir_entry where
  path : ℕ
  stem : String
  is_regular : Bool
  ext_is_csv : Bool
  file : src_file
deriving DecidableEq

/-- The input location and what iterating it yields: the `fs::exists` and
`fs::is_directory` checks, whether `fs::directory_iterator` completes without
throwing, and the entries it produces (in unspecified order). -/
structure directory where
  ex : Bool
  is_dir : Bool
  iter_ok : Bool
  entries : List dir_entry
deriving DecidableEq

/-- The `std::error_code` values `csv_reader` can return. -/
inductive err_code where
  | no_such_file_or_directory
  | not_a_directory
  | iteration_failed
deriving DecidableEq

/-- The filter of the scan loop: regular file, `.csv` extension, mask match. -/
def candidate (masks : List String) (e : dir_entry) : Bool :=
  e.is_regular && e.ext_is_csv && matches_masks masks e.stem

/-- Path order on entries, used by `std::ranges::sort(paths)`. -/
def pathLe (a b : dir_entry) : Prop := a.path ≤ b.path

instance (a b : dir_entry) : Decidable (pathLe a b) := by
  unfold pathLe
  exact inferInstance

instance : IsTotal dir_entry pathLe := ⟨fun a b => Nat.le_total a.path b.path⟩

instance : IsTrans dir_entry pathLe := ⟨fun _ _ _ h1 h2 => Nat.le_trans h1 h2⟩

/-- Strict path order; antisymmetric (vacuously) because two entries cannot
be strictly below each other. -/
def pathLt (a b : dir_entry) : Prop := a.path < b.path

instance : IsAntisymm dir_entry pathLt :=
  ⟨fun _ _ h1 h2 => absurd h1 (Nat.lt_asymm h2)⟩

/-- `std::ranges::sort(paths)` on the discovered entries. -/
def sortByPath (es : List dir_entry) : List dir_entry := es.insertionSort pathLe

/-- The discovered sources: regular `.csv` files matching the masks, sorted
by path — the list `csv_reader::scan_directory` returns on success. -/
def discovered (d : directory) (masks : List String) : List dir_entry :=
  sortByPath (d.entries.filter (candidate masks))

/-- `csv_reader::scan_directory`: hard failure when the input location does
not exist, is not a directory, or iteration throws; otherwise the sorted
candidate list. -/
def scan_directory (d : directory) (masks : List String) :
    Except err_code (List dir_entry) :=
  if !d.ex then .error .no_such_file_or_directory
  else if !d.is_dir then .error .not_a_directory
  else if !d.iter_ok then .error .iteration_failed
  else .ok (discovered d masks)

/-- `csv_reader::process`: scan the directory (propagating its error), warn
and succeed on an empty candidate list, initialise one cursor per path
(retaining the `Ready` ones, in path order), and run the k-way merge.  The
returned list is the sequence of records passed to `on_record_`; `.ok` is the
empty `std::error_code`. -/
def process (d : directory) (masks : List String) :
    Except err_code (List csv_record) :=
  match scan_directory d masks with
  | .error e => .error e
  | .ok paths =>
    if paths.isEmpty then .ok []
    else .ok (merge_engine (paths.map fun e => file_records e.file))

/-! ### Claims about the merge engine and `process` -/

/-- C2: for any per-source-sorted (non-decreasing by timestamp) inputs and
any number of sources, the sequence of records the merge engine emits to the
consumer callback is non-decreasing in timestamp. -/
theorem merge_output_nondecreasing (sources : List (List csv_record))
    (h : ∀ s ∈ sources, s.Sorted tsLe) : (merge_engine sources).Sorted tsLe :=
  merge_engine_sorted sources h

/-- Witness for `merge_output_nondecreasing` on the spec's two-source
scenario `A = [(1000,100),(3000,102)]`, `B = [(2000,101)]`. -/
theorem merge_output_nondecreasing_witness :
    (∀ s ∈ ([[⟨1000, double_val.finite 100⟩, ⟨3000, double_val.finite 102⟩],
        [⟨2000, double_val.finite 101⟩]] : List (List csv_record)),
      s.Sorted tsLe)
    ∧ (merge_engine [[⟨1000, double_val.finite 100⟩, ⟨3000, double_val.finite 102⟩],
        [⟨2000, double_val.finite 101⟩]]).Sorted tsLe :=
  ⟨by decide, merge_output_nondecreasing
    [[⟨1000, double_val.finite 100⟩, ⟨3000, double_val.finite 102⟩],
      [⟨2000, double_val.finite 101⟩]] (by decide)⟩

/-- C5: on a readable directory the merge emits (and counts) exactly the sum,
over all discovered column-valid sources, of their parseable data records;
invalid sources have `file_records = []` and so contribute zero to the sum,
and the run still returns success. -/
theorem process_count_eq_sum_valid (d : directory) (masks : List String)
    (hex : d.ex = true) (hdir : d.is_dir = true) (hit : d.iter_ok = true) :
    ∃ out, process d masks = Except.ok out ∧
      out.length = ((discovered d masks).map fun e => (file_records e.file).length).sum := by
  unfold process scan_directory
  rw [hex, hdir, hit]
  simp only [Bool.not_true, Bool.false_eq_true, if_false]
  by_cases hemp : (discovered d masks).isEmpty
  · rw [if_pos hemp]
    refine ⟨[], rfl, ?_⟩
    rw [List.isEmpty_iff.mp hemp]
    rfl
  · rw [if_neg hemp]
    refine ⟨_, rfl, ?_⟩
    rw [merge_engine_length, List.map_map]
    rfl

/-- Witness for `process_count_eq_sum_valid`: a directory holding one file
whose header lacks the required columns. -/
theorem process_count_eq_sum_valid_witness :
    ((⟨true, true, true, [⟨1, "trade", true, true, ⟨true, ["a;b", "1;2"]⟩⟩]⟩ :
        directory).ex = true)
    ∧ ∃ out, process ⟨true, true, true, [⟨1, "trade", true, true, ⟨true, ["a;b", "1;2"]⟩⟩]⟩
          [] = Except.ok out ∧
        out.length = ((discovered
            ⟨true, true, true, [⟨1, "trade", true, true, ⟨true, ["a;b", "1;2"]⟩⟩]⟩ []).map
          fun e => (file_records e.file).length).sum :=
  ⟨rfl, process_count_eq_sum_valid _ [] rfl rfl rfl⟩

/-- C7: if no sources are discovered, or every discovered source fails
initialisation (none reaches `Ready`), `process` emits nothing and returns
the empty (success) error code. -/
theorem process_no_ready_sources_ok (d : directory) (masks : List String)
    (hex : d.ex = true) (hdir : d.is_dir = true) (hit : d.iter_ok = true)
    (h : discovered d masks = [] ∨ ∀ e ∈ discovered d masks, file_valid e.file = false) :
    process d masks = Except.ok [] := by
  unfold process scan_directory
  rw [hex, hdir, hit]
  simp only [Bool.not_true, Bool.false_eq_true, if_false]
  by_cases hemp : (discovered d masks).isEmpty
  · rw [if_pos hemp]
  · rw [if_neg hemp]
    rcases h with h0 | hall
    · rw [h0] at hemp
      simp at hemp
    · have hfil : ((discovered d masks).map fun e => file_records e.file).filter
          (fun c => !c.isEmpty) = [] := by
        rw [List.filter_eq_nil_iff]
        intro c hc
        rw [List.mem_map] at hc
        obtain ⟨e, he, rfl⟩ := hc
        have hv := hall e he
        unfold file_valid at hv
        simp only [Bool.not_eq_eq_eq_not, Bool.not_false] at hv
        simp [hv]
      show Except.ok (merge_engine _) = Except.ok []
      unfold merge_engine
      rw [hfil]
      rfl

/-- Witness for `process_no_ready_sources_ok`: one discovered file missing
the required columns, hence no cursor reaches `Ready`. -/
theorem process_no_ready_sources_ok_witness :
    ((∀ e ∈ discovered
        ⟨true, true, true, [⟨1, "trade", true, true, ⟨true, ["a;b", "1;2"]⟩⟩]⟩ [],
        file_valid e.file = false))
    ∧ process ⟨true, true, true, [⟨1, "trade", true, true, ⟨true, ["a;b", "1;2"]⟩⟩]⟩ [] =
        Except.ok [] :=
  ⟨by decide, process_no_ready_sources_ok _ [] rfl rfl rfl (Or.inr (by decide))⟩

/-- C8: `process` returns a non-empty error code exactly when the input
location does not exist, is not a directory, or directory iteration fails;
the contents of the discovered files never produce an error. -/
theorem process_error_iff (d : directory) (masks : List String) :
    (∃ e, process d masks = Except.error e) ↔
      (d.ex = false ∨ d.is_dir = false ∨ d.iter_ok = false) := by
  unfold process scan_directory
  cases hex : d.ex <;> cases hdir : d.is_dir <;> cases hit : d.iter_ok <;> simp
  all_goals
    intro e
    split <;> simp

/-! ### Determinism of discovery order -/

theorem sorted_pathLt_of {l : List dir_entry} (hs : l.Sorted pathLe)
    (hnd : (l.map dir_entry.path).Nodup) : l.Sorted pathLt := by
  have h1 : l.Pairwise fun a b => a.path ≠ b.path := List.pairwise_map.mp hnd
  exact (hs.and h1).imp fun hab => Nat.lt_of_le_of_ne hab.1 hab.2

theorem sortByPath_sorted (es : List dir_entry) : (sortByPath es).Sorted pathLe :=
  List.sorted_insertionSort pathLe es

theorem sortByPath_perm (es : List dir_entry) : List.Perm (sortByPath es) es :=
  List.perm_insertionSort pathLe es

/-- Discovery is canonical: any two enumeration orders of the same directory
contents (distinct paths) yield the same discovered list, because the scan
sorts the candidate paths before cursors are created. -/
theorem discovered_perm_eq (masks : List String) (b1 b2 b3 : Bool)
    {ents ents' : List dir_entry} (hperm : List.Perm ents ents')
    (hnd : (ents.map dir_entry.path).Nodup) :
    discovered ⟨b1, b2, b3, ents⟩ masks = discovered ⟨b1, b2, b3, ents'⟩ masks := by
  unfold discovered
  show sortByPath (ents.filter (candidate masks)) = sortByPath (ents'.filter (candidate masks))
  have hndf : ((ents.filter (candidate masks)).map dir_entry.path).Nodup :=
    hnd.sublist ((List.filter_sublist ents).map dir_entry.path)
  have hndf' : ((ents'.filter (candidate masks)).map dir_entry.path).Nodup := by
    have hnd' : (ents'.map dir_entry.path).Nodup := ((hperm.map dir_entry.path).nodup_iff).mp hnd
    exact hnd'.sublist ((List.filter_sublist ents').map dir_entry.path)
  have hp : List.Perm (sortByPath (ents.filter (candidate masks)))
      (sortByPath (ents'.filter (candidate masks))) :=
    ((sortByPath_perm _).trans (hperm.filter (candidate masks))).trans (sortByPath_perm _).symm
  have hs1 : (sortByPath (ents.filter (candidate masks))).Sorted pathLt :=
    sorted_pathLt_of (sortByPath_sorted _)
      (((sortByPath_perm _).map dir_entry.path).nodup_iff.mpr hndf)
  have hs2 : (sortByPath (ents'.filter (candidate masks))).Sorted pathLt :=
    sorted_pathLt_of (sortByPath_sorted _)
      (((sortByPath_perm _).map dir_entry.path).nodup_iff.mpr hndf')
  exact List.eq_of_perm_of_sorted hp hs1 hs2

/-- C9: the emitted record sequence is a deterministic function of the
directory contents alone.  First conjunct: for fixed flags and masks, any
re-ordering of the directory enumeration (paths distinct, as in a real
directory) gives the identical `process` result — sorting the discovered
paths, collecting the initialisation futures in submission order and the
single-threaded merge leave no dependence on thread-pool size or scheduling,
which the model reflects by being a pure function of the enumeration up to
permutation.  Second conjunct: the popped heap entry (the head of the sorted
heap abstraction) beats every other entry either by a strictly smaller
timestamp or, on equal timestamps, by a smaller-or-equal cursor index — ties
break toward the smallest cursor index. -/
theorem process_deterministic_and_tiebreak (masks : List String) (b1 b2 b3 : Bool)
    (ents ents' : List dir_entry) (hperm : List.Perm ents ents')
    (hnd : (ents.map dir_entry.path).Nodup) :
    process ⟨b1, b2, b3, ents⟩ masks = process ⟨b1, b2, b3, ents'⟩ masks
    ∧ ∀ hp : List heap_entry, hp.Sorted pairLe → ∀ hd ∈ hp.head?, ∀ e ∈ hp,
        hd.1 < e.1 ∨ (hd.1 = e.1 ∧ hd.2 ≤ e.2) := by
  constructor
  · have hd := discovered_perm_eq masks b1 b2 b3 hperm hnd
    unfold process scan_directory
    cases b1 <;> cases b2 <;> cases b3 <;> simp [hd]
  · intro hp hs hd hhd e he
    cases hp with
    | nil => simp at hhd
    | cons h0 t =>
      have hd0 : h0 = hd := by simpa using hhd
      subst hd0
      rcases List.mem_cons.mp he with rfl | he'
      · exact Or.inr ⟨rfl, le_refl _⟩
      · have := List.rel_of_sorted_cons hs e he'
        unfold pairLe at this
        exact this

/-- Witness for `process_deterministic_and_tiebreak`: two entries enumerated
in the two possible orders. -/
theorem process_deterministic_and_tiebreak_witness :
    (List.Perm
        [(⟨2, "b", true, true, ⟨true, []⟩⟩ : dir_entry), ⟨1, "a", true, true, ⟨true, []⟩⟩]
        [⟨1, "a", true, true, ⟨true, []⟩⟩, ⟨2, "b", true, true, ⟨true, []⟩⟩]
      ∧ (([(⟨2, "b", true, true, ⟨true, []⟩⟩ : dir_entry),
          ⟨1, "a", true, true, ⟨true, []⟩⟩]).map dir_entry.path).Nodup)
    ∧ process ⟨true, true, true,
          [⟨2, "b", true, true, ⟨true, []⟩⟩, ⟨1, "a", true, true, ⟨true, []⟩⟩]⟩ [] =
        process ⟨true, true, true,
          [⟨1, "a", true, true, ⟨true, []⟩⟩, ⟨2, "b", true, true, ⟨true, []⟩⟩]⟩ [] :=
  ⟨⟨by decide, by decide⟩,
    (process_deterministic_and_tiebreak [] true true true _ _ (by decide) (by decide)).1⟩

/-! ### The prefix semantics of the numeric parsers -/

theorem takeWhile_append_of_all {p : Char → Bool} {l₁ : List Char} (l₂ : List Char)
    (h : ∀ c ∈ l₁, p c) : (l₁ ++ l₂).takeWhile p = l₁ ++ l₂.takeWhile p := by
  induction l₁ with
  | nil => rfl
  | cons x xs ih =>
    simp only [List.cons_append, List.takeWhile_cons, h x (List.mem_cons_self x xs)]
    rw [ih fun c hc => h c (List.mem_cons_of_mem x hc)]
    simp

theorem takeWhile_nil_of_head {p : Char → Bool} {l : List Char}
    (h : ∀ c ∈ l.take 1, ¬ p c) : l.takeWhile p = [] := by
  cases l with
  | nil => rfl
  | cons c cs =>
    have hc : ¬ p c := h c (by simp)
    simp only [List.takeWhile_cons]
    rw [if_neg hc]

theorem parse_u64_digit_run (a t : List Char) (ha : a ≠ []) (hda : ∀ c ∈ a, c.isDigit)
    (ht : ∀ c ∈ t.take 1, ¬ c.isDigit) :
    parse_u64 (a ++ t) = if natOfDigits a < 2 ^ 64 then some (natOfDigits a) else none := by
  unfold parse_u64
  rw [takeWhile_append_of_all t hda, takeWhile_nil_of_head ht, List.append_nil]
  rw [if_neg fun h => ha (List.isEmpty_iff.mp h)]

theorem headD_mem_any {α : Type} (d : α) {l : List α} (h : l ≠ []) : l.headD d ∈ l := by
  cases l with
  | nil => exact absurd rfl h
  | cons x t => exact List.mem_cons_self x t

theorem headD_append_left {α : Type} {l : List α} (h : l ≠ []) (l' : List α) (d : α) :
    (l ++ l').headD d = l.headD d := by
  cases l with
  | nil => exact absurd rfl h
  | cons x t => rfl

theorem matchesCI_false_head (p : Char × Char) (ps : List (Char × Char)) {cs : List Char}
    (hne : cs ≠ []) (h1 : cs.headD ' ' ≠ p.1) (h2 : cs.headD ' ' ≠ p.2) :
    matchesCI (p :: ps) cs = false := by
  cases cs with
  | nil => exact absurd rfl hne
  | cons d ds =>
    have h1' : d ≠ p.1 := h1
    have h2' : d ≠ p.2 := h2
    show ((d == p.1 || d == p.2) && matchesCI ps ds) = false
    rw [beq_eq_false_iff_ne.mpr h1', beq_eq_false_iff_ne.mpr h2']
    rfl

theorem matchesCI_infPat_false {cs : List Char} (hne : cs ≠ [])
    (h1 : cs.headD ' ' ≠ 'i') (h2 : cs.headD ' ' ≠ 'I') : matchesCI infPat cs = false :=
  matchesCI_false_head ('i', 'I') _ hne h1 h2

theorem matchesCI_nanPat_false {cs : List Char} (hne : cs ≠ [])
    (h1 : cs.headD ' ' ≠ 'n') (h2 : cs.headD ' ' ≠ 'N') : matchesCI nanPat cs = false :=
  matchesCI_false_head ('n', 'N') _ hne h1 h2

theorem parse_double_digits (a b t : List Char) (ha : a ≠ [])
    (hda : ∀ c ∈ a, c.isDigit) (hdb : ∀ c ∈ b, c.isDigit)
    (ht : ∀ c ∈ t.take 1, ¬ c.isDigit) (he : expVal t = 0)
    (hbig : (natOfDigits (a ++ b) : ℚ) / 10 ^ b.length < dbl_max_bound)
    (hsmall : (natOfDigits (a ++ b) : ℚ) / 10 ^ b.length = 0 ∨
      dbl_min_bound < (natOfDigits (a ++ b) : ℚ) / 10 ^ b.length) :
    parse_double (a ++ '.' :: (b ++ t)) =
      some (double_val.finite ((natOfDigits (a ++ b) : ℚ) / 10 ^ b.length)) := by
  have hdot : ∀ c ∈ ('.' :: (b ++ t)).take 1, ¬ c.isDigit := by
    intro c hc
    simp at hc
    rw [hc]
    decide
  have hane : a ++ '.' :: (b ++ t) ≠ [] := by
    intro h0
    exact ha (List.append_eq_nil.mp h0).1
  have hhdig : ((a ++ '.' :: (b ++ t)).headD ' ').isDigit := by
    rw [headD_append_left ha]
    exact hda _ (headD_mem_any ' ' ha)
  have hnotc : ∀ d : Char, d.isDigit = false → (a ++ '.' :: (b ++ t)).headD ' ' ≠ d := by
    intro d hd h0
    rw [h0, hd] at hhdig
    cases hhdig
  have h1 : ¬ ((a ++ '.' :: (b ++ t)).headD ' ' = '-') := hnotc '-' (by decide)
  have hinf : ¬ (matchesCI infPat (a ++ '.' :: (b ++ t)) = true) := by
    rw [matchesCI_infPat_false hane (hnotc 'i' (by decide)) (hnotc 'I' (by decide))]
    simp
  have hnan : ¬ (matchesCI nanPat (a ++ '.' :: (b ++ t)) = true) := by
    rw [matchesCI_nanPat_false hane (hnotc 'n' (by decide)) (hnotc 'N' (by decide))]
    simp
  have h2 : (a ++ '.' :: (b ++ t)).takeWhile Char.isDigit = a := by
    rw [takeWhile_append_of_all _ hda, takeWhile_nil_of_head hdot]
    simp
  have hfrac : (b ++ t).takeWhile Char.isDigit = b := by
    rw [takeWhile_append_of_all _ hdb, takeWhile_nil_of_head ht]
    simp
  have hcond2 : ('.' :: (b ++ t)).headD ' ' = '.' := rfl
  have h3 : ¬ ((a.isEmpty && b.isEmpty) = true) := by
    simp only [Bool.and_eq_true]
    intro h0
    exact ha (List.isEmpty_iff.mp h0.1)
  have hguard : ¬ (dbl_max_bound ≤ (natOfDigits (a ++ b) : ℚ) / 10 ^ b.length ∨
      ((natOfDigits (a ++ b) : ℚ) / 10 ^ b.length ≠ 0 ∧
        (natOfDigits (a ++ b) : ℚ) / 10 ^ b.length ≤ dbl_min_bound)) := by
    intro hor
    rcases hor with hle | ⟨hne0, hle⟩
    · exact absurd hle (not_le.mpr hbig)
    · rcases hsmall with h0 | hgt
      · exact hne0 h0
      · exact absurd hle (not_le.mpr hgt)
  unfold parse_double
  simp only [if_neg h1]
  rw [if_neg hinf, if_neg hnan]
  simp only [h2]
  simp only [List.drop_left]
  simp only [if_pos hcond2]
  simp only [List.tail_cons]
  simp only [hfrac]
  simp only [List.drop_left]
  rw [if_neg h3]
  rw [he]
  rw [show pow10 0 = 1 from by norm_num [pow10]]
  rw [mul_one]
  rw [if_neg hguard]

/-- C6 counterexample: the numeric parsing does *not* accept exactly the
literal textual representations and reject anything else — `std::from_chars`
succeeds on any field with a valid numeric prefix and the code never checks
that the whole field was consumed, so the line `123abc;4.5xyz` (timestamp
field `123abc`, price field `4.5xyz`) is accepted as the record
`(123, 4.5)` instead of being rejected. -/
theorem parse_accepts_nonliteral_numerals :
    parse_line 0 1 "123abc;4.5xyz".toList = some ⟨123, double_val.finite (9 / 2)⟩ := by
  have hts : getField "123abc;4.5xyz".toList 0 = "123abc".toList := by decide
  have hpr : getField "123abc;4.5xyz".toList 1 = "4.5xyz".toList := by decide
  have hu : parse_u64 "123abc".toList = some 123 := by decide
  have hd : parse_double "4.5xyz".toList = some (double_val.finite (9 / 2)) := by
    have hnat : natOfDigits (['4'] ++ ['5']) = 45 := by decide
    have h := parse_double_digits ['4'] ['5'] "xyz".toList (by decide) (by decide)
      (by decide) (by decide) (by decide)
      (by rw [hnat]; norm_num [dbl_max_bound])
      (by rw [hnat]; right; norm_num [dbl_min_bound])
    have heq : ['4'] ++ '.' :: (['5'] ++ "xyz".toList) = "4.5xyz".toList := by decide
    rw [heq] at h
    rw [h, hnat]
    norm_num
  unfold parse_line
  rw [hts, hpr, if_neg (by decide), hu, hd]

/-- C6 amended: `advance()` skips (without surfacing an error) every line
whose required fields are missing or fail numeric parse — the spec's scenario
of a malformed row between two valid rows yields exactly the two valid
records — but the numeric parsing accepts any field whose longest numeric
*prefix* is valid (`std::from_chars` semantics: trailing non-numeric
characters are ignored; overflowing timestamps and out-of-double-range
prices are rejected; the case-insensitive `inf`/`infinity`/`nan` spellings
are accepted as price fields), not exactly the literal textual
representations; a price field that neither starts with a digit, sign or
decimal point nor is an `inf`/`nan` spelling is rejected. -/
theorem advance_skips_and_prefix_parses :
    cursor_records 0 2 ["1000;900;100.0;1.0;bid", "not_a_number;900;100.0;1.0;bid",
      "3000;2900;102.0;1.0;bid"] =
        [⟨1000, double_val.finite 100⟩, ⟨3000, double_val.finite 102⟩]
    ∧ (∀ a t : List Char, a ≠ [] → (∀ c ∈ a, c.isDigit) → (∀ c ∈ t.take 1, ¬ c.isDigit) →
        parse_u64 (a ++ t) = if natOfDigits a < 2 ^ 64 then some (natOfDigits a) else none)
    ∧ (∀ s : List Char, (∀ c ∈ s.take 1, ¬ c.isDigit ∧ c ≠ '-' ∧ c ≠ '.') →
        matchesCI infPat s = false → matchesCI nanPat s = false → parse_double s = none)
    ∧ parse_double "inf".toList = some (double_val.infinite false)
    ∧ parse_double "-Infinity".toList = some (double_val.infinite true)
    ∧ parse_double "nan".toList = some (double_val.nan false)
    ∧ parse_double "1e999".toList = none := by
  refine ⟨?_, parse_u64_digit_run, ?_, by decide, by decide, by decide, ?_⟩
  · have hp1 : parse_line 0 2 "1000;900;100.0;1.0;bid".toList =
        some ⟨1000, double_val.finite 100⟩ := by
      have hts : getField "1000;900;100.0;1.0;bid".toList 0 = "1000".toList := by decide
      have hpr : getField "1000;900;100.0;1.0;bid".toList 2 = "100.0".toList := by decide
      have hu : parse_u64 "1000".toList = some 1000 := by decide
      have hd : parse_double "100.0".toList = some (double_val.finite 100) := by
        have hnat : natOfDigits (['1', '0', '0'] ++ ['0']) = 1000 := by decide
        have h := parse_double_digits ['1', '0', '0'] ['0'] [] (by decide) (by decide)
          (by decide) (by decide) (by decide)
          (by rw [hnat]; norm_num [dbl_max_bound])
          (by rw [hnat]; right; norm_num [dbl_min_bound])
        have heq : ['1', '0', '0'] ++ '.' :: (['0'] ++ []) = "100.0".toList := by decide
        rw [heq] at h
        rw [h, hnat]
        norm_num
      unfold parse_line
      rw [hts, hpr, if_neg (by decide), hu, hd]
    have hp2 : parse_line 0 2 "not_a_number;900;100.0;1.0;bid".toList = none := by
      have hts : getField "not_a_number;900;100.0;1.0;bid".toList 0 =
          "not_a_number".toList := by decide
      have hu : parse_u64 "not_a_number".toList = none := by decide
      unfold parse_line
      rw [hts, if_neg (by decide), hu]
    have hp3 : parse_line 0 2 "3000;2900;102.0;1.0;bid".toList =
        some ⟨3000, double_val.finite 102⟩ := by
      have hts : getField "3000;2900;102.0;1.0;bid".toList 0 = "3000".toList := by decide
      have hpr : getField "3000;2900;102.0;1.0;bid".toList 2 = "102.0".toList := by decide
      have hu : parse_u64 "3000".toList = some 3000 := by decide
      have hd : parse_double "102.0".toList = some (double_val.finite 102) := by
        have hnat : natOfDigits (['1', '0', '2'] ++ ['0']) = 1020 := by decide
        have h := parse_double_digits ['1', '0', '2'] ['0'] [] (by decide) (by decide)
          (by decide) (by decide) (by decide)
          (by rw [hnat]; norm_num [dbl_max_bound])
          (by rw [hnat]; right; norm_num [dbl_min_bound])
        have heq : ['1', '0', '2'] ++ '.' :: (['0'] ++ []) = "102.0".toList := by decide
        rw [heq] at h
        rw [h, hnat]
        norm_num
      unfold parse_line
      rw [hts, hpr, if_neg (by decide), hu, hd]
    unfold cursor_records
    simp only [List.filterMap_cons, List.filterMap_nil]
    rw [if_neg (by decide : ¬ (("1000;900;100.0;1.0;bid" : String).toList = [])), hp1]
    rw [if_neg (by decide : ¬ (("not_a_number;900;100.0;1.0;bid" : String).toList = [])), hp2]
    rw [if_neg (by decide : ¬ (("3000;2900;102.0;1.0;bid" : String).toList = [])), hp3]
  · intro s h hif hnn
    cases s with
    | nil => decide
    | cons c s' =>
      obtain ⟨hcd, hcm, hcp⟩ := h c (by simp)
      have h2 : (c :: s').takeWhile Char.isDigit = [] := by
        refine takeWhile_nil_of_head ?_
        intro x hx
        simp at hx
        subst hx
        exact hcd
      unfold parse_double
      simp only [List.headD_cons, if_neg hcm]
      rw [if_neg (by rw [hif]; simp : ¬ (matchesCI infPat (c :: s') = true))]
      rw [if_neg (by rw [hnn]; simp : ¬ (matchesCI nanPat (c :: s') = true))]
      simp only [h2]
      simp only [List.length_nil, List.drop_zero]
      simp only [List.headD_cons, if_neg hcp]
      simp
  · have e1 : ¬ ("1e999".toList.headD ' ' = '-') := by decide
    have e2 : ¬ (matchesCI infPat "1e999".toList = true) := by decide
    have e3 : ¬ (matchesCI nanPat "1e999".toList = true) := by decide
    have e4 : "1e999".toList.takeWhile Char.isDigit = ['1'] := by decide
    have e5 : "1e999".toList.drop (['1'] : List Char).length = "e999".toList := by decide
    have e6 : ¬ ("e999".toList.headD ' ' = '.') := by decide
    have e7 : expVal "e999".toList = 999 := by decide
    have e8 : natOfDigits (['1'] ++ []) = 1 := by decide
    unfold parse_double
    simp only [if_neg e1]
    rw [if_neg e2, if_neg e3]
    simp only [e4]
    simp only [e5]
    simp only [if_neg e6]
    rw [if_neg (by decide : ¬ (((['1'] : List Char).isEmpty &&
      (List.isEmpty ([] : List Char))) = true))]
    rw [e7, e8]
    rw [if_pos (Or.inl (by
      have ht : Int.toNat 999 = 999 := rfl
      norm_num [dbl_max_bound, pow10, ht]))]

/-- Witness for `advance_skips_and_prefix_parses`: the prefix clause applied
to the digit run `123` followed by `abc`. -/
theorem advance_skips_and_prefix_parses_witness :
    ((['1', '2', '3'] : List Char) ≠ [] ∧ (∀ c ∈ (['1', '2', '3'] : List Char), c.isDigit)
        ∧ (∀ c ∈ ("abc".toList).take 1, ¬ c.isDigit))
    ∧ parse_u64 (['1', '2', '3'] ++ "abc".toList) =
        (if natOfDigits ['1', '2', '3'] < 2 ^ 64 then some (natOfDigits ['1', '2', '3'])
          else none) :=
  ⟨⟨by decide, by decide, by decide⟩,
    advance_skips_and_prefix_parses.2.1 ['1', '2', '3'] "abc".toList (by decide) (by decide)
      (by decide)⟩

end CsvMedian

